import Mathlib

/-!
# Verification of the cpp-graph-autodiff compute-graph core

Shallow embedding of `src/graph.h` / `src/graph.cpp` (namespace
`compute_graph_ad`): expression graphs over named scalar variables,
value evaluation (`eval`), forward-mode gradient evaluation
(`eval_grad`), and the protobuf-level serialization
(`to_proto` / `op_from_proto` / `from_proto`).

Modelling decisions:
* The scalar carrier is `ℚ` standing for the C++ `float`; the claims
  under study are structural identities over the field operations
  (they hold verbatim over any commutative ring, and "up to rounding"
  over IEEE floats).
* `Inputs` (`absl::flat_hash_map<std::string, float>`) is an
  association list; the hash-map uniqueness of keys becomes an
  explicit `Nodup` hypothesis where a proof needs it.
* `std::abort()` (process termination, found in `Var::eval` and in
  `op_from_proto`) is modelled by the dedicated outcome
  `EvalResult.processAbort`, kept distinct from any returned error
  value: the code under `src/` has no error-value path at all for
  these events.
* C++ sequencing is preserved: once a sub-evaluation aborts, no
  further work of the enclosing call is modelled.
-/

namespace ComputeGraphAd

/-- Outcome of running a piece of the C++ code: either a normal return
value, or the process terminating via `std::abort()`.  There is no
third constructor because the modelled code returns no error values. -/
inductive EvalResult (α : Type) where
  | ok (val : α)
  | processAbort

/-- `Inputs`: mapping from variable name to scalar value
(`absl::flat_hash_map<std::string, float>` in `graph.h`). -/
def Inputs := List (String × ℚ)

/-- `inputs.find(name)` on the hash map: first binding of `name`. -/
def lookupVar : Inputs → String → Option ℚ
  | [], _ => none
  | (k, v) :: rest, name => if k = name then some v else lookupVar rest name

/-- Number of entries, `inputs.size()`. -/
def Inputs.size (inputs : Inputs) : Nat := List.length inputs

/-- The keys of the binding, in insertion order. -/
def Inputs.keys (inputs : Inputs) : List String := List.map Prod.fst inputs

/-- `std::distance(begin, std::find(begin, end, name))`: index of the
first occurrence of `name`, or the length of the list when absent. -/
def listIndexOf (name : String) : List String → Nat
  | [] => 0
  | x :: xs => if x = name then 0 else listIndexOf name xs + 1

/-- The sorted copy of the variable names built inside `find_var_idx`
(`graph.cpp:72-75`): collect the keys, `std::sort` them
(lexicographic `<` on `std::string`). -/
def var_names_sorted (inputs : Inputs) : List String :=
  List.insertionSort (fun a b => a ≤ b) (Inputs.keys inputs)

/-- `find_var_idx` (`graph.cpp:70-79`): sort the variable names of
`inputs` and return the position of `name` in the sorted list
(`inputs.size()` when the name is absent, since `std::find` returns
the end iterator). -/
def find_var_idx (name : String) (inputs : Inputs) : Nat :=
  listIndexOf name (var_names_sorted inputs)

/-- The closed set of expression-node variants: `Sum`, `Mul`, `Const`,
`Var` (the four final classes deriving from `Op` in `graph.h`).
Operands are held inline: the C++ `shared_ptr<const Op>` sharing is
observationally a tree for the pure operations verified here. -/
inductive Op where
  | sum (op1 op2 : Op)
  | mul (op1 op2 : Op)
  | const (value : ℚ)
  | var (name : String)

/-- `Op::eval`, one clause per final class:
* `Sum::eval` (`graph.cpp:82-85`): `op1->eval(inputs) + op2->eval(inputs)`;
* `Mul::eval` (`graph.cpp:128-131`): `op1->eval(inputs) * op2->eval(inputs)`;
* `Const::eval` (`graph.h:175`): the stored value;
* `Var::eval` (`graph.cpp:208-214`): look the name up in `inputs`,
  calling `std::abort()` when it is absent. -/
def Op.eval : Op → Inputs → EvalResult ℚ
  | .sum a b, inputs =>
    match a.eval inputs with
    | .processAbort => .processAbort
    | .ok v1 =>
      match b.eval inputs with
      | .processAbort => .processAbort
      | .ok v2 => .ok (v1 + v2)
  | .mul a b, inputs =>
    match a.eval inputs with
    | .processAbort => .processAbort
    | .ok v1 =>
      match b.eval inputs with
      | .processAbort => .processAbort
      | .ok v2 => .ok (v1 * v2)
  | .const v, _ => .ok v
  | .var n, inputs =>
    match lookupVar inputs n with
    | some v => .ok v
    | none => .processAbort

/-- `Op::eval_grad(inputs, grad_out)`, returning the value together
with the gradient buffer contents (`grad_out` has `inputs.size()`
entries, allocated by `Graph::eval_grad`):
* `Sum::eval_grad` (`graph.cpp:87-105`): evaluate both operands into
  the two jacobian rows, then `grad_out = Ones() * jacobian`, i.e. the
  elementwise sum of the two rows; value `value1 + value2`;
* `Mul::eval_grad` (`graph.cpp:133-153`): `grad_out = (value2, value1)
  * jacobian`, i.e. elementwise `value2 * grad1 + value1 * grad2`;
  value `value1 * value2`;
* `Const::eval_grad` (`graph.cpp:190-196`): zero the buffer, return
  the stored value;
* `Var::eval_grad` (`graph.cpp:216-226`): zero the buffer, write `1.0`
  at `find_var_idx(name, inputs)`, return `eval(inputs)` — which
  aborts the process when the name is absent. -/
def Op.eval_grad : Op → Inputs → EvalResult (ℚ × List ℚ)
  | .sum a b, inputs =>
    match a.eval_grad inputs with
    | .processAbort => .processAbort
    | .ok (v1, g1) =>
      match b.eval_grad inputs with
      | .processAbort => .processAbort
      | .ok (v2, g2) => .ok (v1 + v2, List.zipWith (fun x y => x + y) g1 g2)
  | .mul a b, inputs =>
    match a.eval_grad inputs with
    | .processAbort => .processAbort
    | .ok (v1, g1) =>
      match b.eval_grad inputs with
      | .processAbort => .processAbort
      | .ok (v2, g2) => .ok (v1 * v2, List.zipWith (fun x y => v2 * x + v1 * y) g1 g2)
  | .const v, inputs => .ok (v, List.replicate (Inputs.size inputs) 0)
  | .var n, inputs =>
    match lookupVar inputs n with
    | some v =>
        .ok (v, (List.replicate (Inputs.size inputs) (0 : ℚ)).set (find_var_idx n inputs) 1)
    | none => .processAbort

/-- `Graph` (`graph.h:104-135`): a handle to exactly one root node. -/
structure Graph where
  op : Op

/-- `Graph::eval` (`graph.cpp:176-179`): delegate to the root node. -/
def Graph.eval (g : Graph) (inputs : Inputs) : EvalResult ℚ :=
  g.op.eval inputs

/-- `Graph::eval_grad` (`graph.cpp:181-188`): allocate a gradient
buffer of `inputs.size()` entries and delegate to the root node. -/
def Graph.eval_grad (g : Graph) (inputs : Inputs) : EvalResult (ℚ × List ℚ) :=
  g.op.eval_grad inputs

/-- `operator+(const Graph&, const Graph&)` (`graph.h:112-114`):
build one new `Sum` node referencing the two existing roots. -/
def Graph.addG (g1 g2 : Graph) : Graph := ⟨Op.sum g1.op g2.op⟩

/-- `operator*(const Graph&, const Graph&)` (`graph.h:116-118`):
build one new `Mul` node referencing the two existing roots. -/
def Graph.mulG (g1 g2 : Graph) : Graph := ⟨Op.mul g1.op g2.op⟩

/-- Names of the `Var` leaves reachable in a node (left-to-right). -/
def Op.varNames : Op → List String
  | .sum a b => a.varNames ++ b.varNames
  | .mul a b => a.varNames ++ b.varNames
  | .const _ => []
  | .var n => [n]

/-- Number of expression nodes in a graph rooted at this node. -/
def Op.nodeCount : Op → Nat
  | .sum a b => a.nodeCount + b.nodeCount + 1
  | .mul a b => a.nodeCount + b.nodeCount + 1
  | .const _ => 1
  | .var _ => 1

/-- The serialized form of one graph record, as the code observes it
through the generated protobuf API (`graph.pb.h` is generated code,
not under `src/`; this shape is fixed by the calls in `graph.cpp` and
by the spec's wire format: a `graph_proto::Graph` carries a
discriminator `Op_case()` that is one of `kSum`, `kMul`, `kConst`,
`kVar`, or `OP_NOT_SET`, `Sum`/`Mul` payloads carry two nested `Graph`
records, `Const` one scalar, `Var` one name). -/
inductive ProtoGraph where
  | opUnset
  | opSum (op1 op2 : ProtoGraph)
  | opMul (op1 op2 : ProtoGraph)
  | opConst (value : ℚ)
  | opVar (name : String)

/-- `Op::to_proto` composed with `make_proto_graph`
(`graph.cpp:22-44`): each final class emits its tagged record —
`Sum::to_proto` (`graph.cpp:107-121`) and `Mul::to_proto`
(`graph.cpp:155-169`) recursively serialize both operands;
`Const::to_proto` (`graph.cpp:198-202`) stores the value;
`Var::to_proto` (`graph.cpp:228-232`) stores the name. -/
def Op.to_proto : Op → ProtoGraph
  | .sum a b => .opSum a.to_proto b.to_proto
  | .mul a b => .opMul a.to_proto b.to_proto
  | .const v => .opConst v
  | .var n => .opVar n

/-- `op_from_proto` (`graph.cpp:46-68`) together with the nested
`Sum::from_proto` (`graph.cpp:123-126`) / `Mul::from_proto`
(`graph.cpp:171-174`) / `Const::from_proto` / `Var::from_proto` it
dispatches to.  On an unset discriminator (`OP_NOT_SET`) the code
calls `std::abort()` (`graph.cpp:63`). -/
def op_from_proto : ProtoGraph → EvalResult Op
  | .opSum p1 p2 =>
    match op_from_proto p1 with
    | .processAbort => .processAbort
    | .ok o1 =>
      match op_from_proto p2 with
      | .processAbort => .processAbort
      | .ok o2 => .ok (.sum o1 o2)
  | .opMul p1 p2 =>
    match op_from_proto p1 with
    | .processAbort => .processAbort
    | .ok o1 =>
      match op_from_proto p2 with
      | .processAbort => .processAbort
      | .ok o2 => .ok (.mul o1 o2)
  | .opConst v => .ok (.const v)
  | .opVar n => .ok (.var n)
  | .opUnset => .processAbort

/-- `Graph::to_proto` (`graph.cpp:238-242`): serialize the root. -/
def Graph.to_proto (g : Graph) : ProtoGraph := g.op.to_proto

/-- `Graph::from_proto` (`graph.cpp:244-246`): rebuild the root via
`op_from_proto` and wrap it in a `Graph`. -/
def Graph.from_proto (p : ProtoGraph) : EvalResult Graph :=
  match op_from_proto p with
  | .ok o => .ok ⟨o⟩
  | .processAbort => .processAbort

/-- `Op::eval_grad` instrumented with the number of times
`find_var_idx` runs during the call: the recursion is the one of
`Op.eval_grad` (`graph.cpp:87-105`, `133-153`, `190-196`, `216-226`),
and the only call site of `find_var_idx` is inside `Var::eval_grad`
(`graph.cpp:222`), executed once per visited `Var` leaf. -/
def Op.eval_grad_fviCount : Op → Inputs → EvalResult (ℚ × List ℚ) × Nat
  | .sum a b, inputs =>
    match a.eval_grad_fviCount inputs with
    | (.processAbort, c1) => (.processAbort, c1)
    | (.ok (v1, g1), c1) =>
      match b.eval_grad_fviCount inputs with
      | (.processAbort, c2) => (.processAbort, c1 + c2)
      | (.ok (v2, g2), c2) =>
          (.ok (v1 + v2, List.zipWith (fun x y => x + y) g1 g2), c1 + c2)
  | .mul a b, inputs =>
    match a.eval_grad_fviCount inputs with
    | (.processAbort, c1) => (.processAbort, c1)
    | (.ok (v1, g1), c1) =>
      match b.eval_grad_fviCount inputs with
      | (.processAbort, c2) => (.processAbort, c1 + c2)
      | (.ok (v2, g2), c2) =>
          (.ok (v1 * v2, List.zipWith (fun x y => v2 * x + v1 * y) g1 g2), c1 + c2)
  | .const v, inputs => (.ok (v, List.replicate (Inputs.size inputs) 0), 0)
  | .var n, inputs =>
    match lookupVar inputs n with
    | some v =>
        (.ok (v, (List.replicate (Inputs.size inputs) (0 : ℚ)).set (find_var_idx n inputs) 1), 1)
    | none => (.processAbort, 1)

/-- The evaluation point induced by an `Inputs` binding: each
variable name is sent to its bound value (and `0` for unbound names,
a default that is never reached under the variable-presence
hypotheses used below). -/
def assignment (inputs : Inputs) (n : String) : ℚ := (lookupVar inputs n).getD 0

/-- Specification-side denotation of a node as a polynomial over the
variable names: `Sum` ↦ `+`, `Mul` ↦ `*`, `Const` ↦ constant, `Var` ↦
indeterminate.  `Op.eval_spec` proves the code's `eval` computes
exactly this polynomial's value, so its `MvPolynomial.pderiv` is the
mathematical partial derivative of the function the graph denotes. -/
noncomputable def Op.toPoly : Op → MvPolynomial String ℚ
  | .sum a b => a.toPoly + b.toPoly
  | .mul a b => a.toPoly * b.toPoly
  | .const v => MvPolynomial.C v
  | .var n => MvPolynomial.X n

/-! ## Helper lemmas -/

/-- When `name` occurs in `l`, its `std::find` position is a valid
index of `l`. -/
theorem listIndexOf_lt_length (name : String) (l : List String) (h : name ∈ l) :
    listIndexOf name l < l.length := by
  induction l with
  | nil => cases h
  | cons x xs ih =>
    simp only [listIndexOf, List.length_cons]
    by_cases hx : x = name
    · simp [hx]
    · rw [if_neg hx]
      have hmem : name ∈ xs := by
        rcases List.mem_cons.mp h with h1 | h1
        · exact absurd h1.symm hx
        · exact h1
      exact Nat.succ_lt_succ (ih hmem)

/-- When `name` does not occur in `l`, `std::find` reaches the end:
the reported position is the length of `l`. -/
theorem listIndexOf_eq_length (name : String) (l : List String) (h : name ∉ l) :
    listIndexOf name l = l.length := by
  induction l with
  | nil => rfl
  | cons x xs ih =>
    simp only [listIndexOf, List.length_cons]
    have hx : ¬x = name := fun hc => h (hc ▸ List.mem_cons_self x xs)
    rw [if_neg hx, ih (fun hc => h (List.mem_cons_of_mem x hc))]

/-- Sorting the keys does not change how many there are. -/
theorem var_names_sorted_length (inputs : Inputs) :
    (var_names_sorted inputs).length = Inputs.size inputs := by
  unfold var_names_sorted Inputs.keys Inputs.size
  rw [(List.perm_insertionSort _ _).length_eq, List.length_map]

/-- Sorting the keys does not change which names occur. -/
theorem mem_var_names_sorted (name : String) (inputs : Inputs) :
    name ∈ var_names_sorted inputs ↔ name ∈ Inputs.keys inputs :=
  (List.perm_insertionSort _ _).mem_iff

/-- Sorting the keys preserves their uniqueness. -/
theorem var_names_sorted_nodup (inputs : Inputs) (hnd : (Inputs.keys inputs).Nodup) :
    (var_names_sorted inputs).Nodup :=
  (List.perm_insertionSort _ _).nodup_iff.mpr hnd

/-- A one-hot indicator mapped over a list avoiding the hot name is
all zeros. -/
theorem map_onehot_of_not_mem (nm : String) (l : List String) (h : nm ∉ l) :
    l.map (fun m => if nm = m then (1 : ℚ) else 0) = List.replicate l.length 0 := by
  induction l with
  | nil => rfl
  | cons x xs ih =>
    simp only [List.map_cons, List.length_cons, List.replicate_succ]
    have hx : ¬nm = x := fun hc => h (hc ▸ List.mem_cons_self x xs)
    rw [if_neg hx, ih (fun hc => h (List.mem_cons_of_mem x hc))]

/-- On a duplicate-free list, mapping the one-hot indicator of `nm`
is the same as writing `1` into an all-zero buffer at the `std::find`
position of `nm` (a no-op write one past the end when `nm` is
absent). -/
theorem map_onehot_eq_set (nm : String) (l : List String) (hnd : l.Nodup) :
    l.map (fun m => if nm = m then (1 : ℚ) else 0) =
      (List.replicate l.length 0).set (listIndexOf nm l) 1 := by
  induction l with
  | nil => rfl
  | cons x xs ih =>
    rw [List.nodup_cons] at hnd
    simp only [List.map_cons, List.length_cons, List.replicate_succ, listIndexOf]
    by_cases hx : x = nm
    · rw [if_pos hx, if_pos hx.symm]
      show _ = (1 : ℚ) :: List.replicate xs.length 0
      rw [map_onehot_of_not_mem nm xs (hx ▸ hnd.1)]
    · rw [if_neg hx, if_neg (fun hc => hx hc.symm)]
      show _ = (0 : ℚ) :: (List.replicate xs.length 0).set (listIndexOf nm xs) 1
      rw [ih hnd.2]

/-- The code's `eval` computes the value of the denoted polynomial at
the bound point, whenever every variable of the graph is bound. -/
theorem Op.eval_spec (op : Op) (inputs : Inputs)
    (hv : ∀ n ∈ op.varNames, (lookupVar inputs n).isSome) :
    op.eval inputs = .ok (MvPolynomial.eval (assignment inputs) op.toPoly) := by
  induction op with
  | sum a b iha ihb =>
    have ha := iha (fun n hn => hv n (List.mem_append_left _ hn))
    have hb := ihb (fun n hn => hv n (List.mem_append_right _ hn))
    simp [Op.eval, Op.toPoly, ha, hb]
  | mul a b iha ihb =>
    have ha := iha (fun n hn => hv n (List.mem_append_left _ hn))
    have hb := ihb (fun n hn => hv n (List.mem_append_right _ hn))
    simp [Op.eval, Op.toPoly, ha, hb]
  | const v => simp [Op.eval, Op.toPoly]
  | var nm =>
    obtain ⟨v, hveq⟩ := Option.isSome_iff_exists.mp (hv nm (by simp [Op.varNames]))
    simp [Op.eval, Op.toPoly, hveq, assignment]

/-- Central gradient lemma: on inputs with duplicate-free keys that
bind every variable of the graph, the code's `eval_grad` returns the
denoted polynomial's value together with the list of its partial
derivatives, taken along the lexicographically sorted key names. -/
theorem Op.eval_grad_spec (op : Op) (inputs : Inputs)
    (hnd : (Inputs.keys inputs).Nodup)
    (hv : ∀ n ∈ op.varNames, (lookupVar inputs n).isSome) :
    op.eval_grad inputs =
      .ok (MvPolynomial.eval (assignment inputs) op.toPoly,
        (var_names_sorted inputs).map
          (fun n => MvPolynomial.eval (assignment inputs)
            (MvPolynomial.pderiv n op.toPoly))) := by
  induction op with
  | sum a b iha ihb =>
    have ha := iha (fun n hn => hv n (List.mem_append_left _ hn))
    have hb := ihb (fun n hn => hv n (List.mem_append_right _ hn))
    simp only [Op.eval_grad, Op.toPoly, ha, hb]
    rw [List.zipWith_map, List.zipWith_same]
    simp [map_add]
  | mul a b iha ihb =>
    have ha := iha (fun n hn => hv n (List.mem_append_left _ hn))
    have hb := ihb (fun n hn => hv n (List.mem_append_right _ hn))
    have hfun : (fun n => MvPolynomial.eval (assignment inputs)
          (MvPolynomial.pderiv n (a.toPoly * b.toPoly))) =
        fun n => MvPolynomial.eval (assignment inputs) b.toPoly *
            MvPolynomial.eval (assignment inputs) (MvPolynomial.pderiv n a.toPoly) +
          MvPolynomial.eval (assignment inputs) a.toPoly *
            MvPolynomial.eval (assignment inputs) (MvPolynomial.pderiv n b.toPoly) := by
      funext m
      rw [MvPolynomial.pderiv_mul]
      simp only [map_add, map_mul]
      ring
    simp only [Op.eval_grad, Op.toPoly, ha, hb, hfun]
    rw [List.zipWith_map, List.zipWith_same]
    simp [map_mul]
  | const v =>
    simp [Op.eval_grad, Op.toPoly, MvPolynomial.pderiv_C, List.map_const',
      var_names_sorted_length]
  | var nm =>
    obtain ⟨v, hveq⟩ := Option.isSome_iff_exists.mp (hv nm (by simp [Op.varNames]))
    have hfun : (fun n => MvPolynomial.eval (assignment inputs)
          (MvPolynomial.pderiv n (MvPolynomial.X nm : MvPolynomial String ℚ))) =
        fun n => if nm = n then (1 : ℚ) else 0 := by
      funext m
      by_cases hm : nm = m
      · subst hm
        simp [MvPolynomial.pderiv_X_self]
      · rw [MvPolynomial.pderiv_X_of_ne hm]
        simp [hm]
    simp only [Op.eval_grad, Op.toPoly, hveq, hfun, find_var_idx]
    rw [map_onehot_eq_set nm _ (var_names_sorted_nodup inputs hnd),
      var_names_sorted_length]
    simp [assignment, hveq]

/-- Decoding inverts encoding on every node tree. -/
theorem op_from_proto_to_proto (op : Op) : op_from_proto op.to_proto = .ok op := by
  induction op with
  | sum a b iha ihb => simp [Op.to_proto, op_from_proto, iha, ihb]
  | mul a b iha ihb => simp [Op.to_proto, op_from_proto, iha, ihb]
  | const v => rfl
  | var n => rfl

/-! ## Claims -/

/-- C1: the claim says a missing variable makes `eval` / `eval_grad`
fail with a recoverable `MissingVariable(name)` error value, never a
process abort.  The code does the opposite: `Var::eval`
(`graph.cpp:208-214`) calls `std::abort()` when the name is absent
from `inputs`, and `Var::eval_grad` (`graph.cpp:216-226`) reaches the
same abort through its final `eval(inputs)` call.  At the concrete
failing input — the graph `Var "x"` evaluated against empty inputs —
both entry points terminate the process. -/
theorem C1_missing_variable_aborts_process :
    Graph.eval ⟨.var "x"⟩ [] = .processAbort ∧
    Graph.eval_grad ⟨.var "x"⟩ [] = .processAbort :=
  ⟨rfl, rfl⟩

/-- C2: the claim says a missing/unrecognized discriminator (an unset
operation case in any nested record) makes deserialization fail with
an `InvalidEncoding` error value.  The code does the opposite:
`op_from_proto` (`graph.cpp:46-68`) calls `std::abort()` on
`OP_NOT_SET` (`graph.cpp:63`), at the top level and inside any nested
record, so no error value is ever returned for this input class. -/
theorem C2_unset_discriminator_aborts_process :
    Graph.from_proto .opUnset = .processAbort ∧
    Graph.from_proto (.opSum (.opConst 1) .opUnset) = .processAbort :=
  ⟨rfl, rfl⟩

/-- C3: `Graph::eval_grad` (`graph.cpp:181-188`) allocates the
gradient buffer with `inputs.size()` entries, and — on inputs with
duplicate-free keys (a hash-map invariant) binding every variable of
the graph — returns a gradient of exactly that length whose entry `i`
is the partial derivative of the denoted polynomial with respect to
the variable whose name has rank `i` in the ascending lexicographic
order of the `Inputs` keys (the sort performed by `find_var_idx`,
`graph.cpp:70-79`). -/
theorem C3_gradient_length_and_ordering (g : Graph) (inputs : Inputs)
    (hnd : (Inputs.keys inputs).Nodup)
    (hv : ∀ n ∈ g.op.varNames, (lookupVar inputs n).isSome) :
    ∃ v grad, g.eval_grad inputs = .ok (v, grad) ∧
      grad.length = Inputs.size inputs ∧
      ∀ i : Nat, grad[i]? =
        Option.map
          (fun n => MvPolynomial.eval (assignment inputs)
            (MvPolynomial.pderiv n g.op.toPoly))
          (var_names_sorted inputs)[i]? := by
  refine ⟨_, _, Op.eval_grad_spec g.op inputs hnd hv, ?_, ?_⟩
  · rw [List.length_map, var_names_sorted_length]
  · intro i
    rw [List.getElem?_map]

/-- Witness for C3 at `g = Var "x" * Var "y"` with inputs
`{y ↦ 5, x ↦ 2}` (note the insertion order is not sorted). -/
theorem C3_gradient_length_and_ordering_witness :
    ∃ v grad,
      Graph.eval_grad ⟨.mul (.var "x") (.var "y")⟩ [("y", 5), ("x", 2)] =
        .ok (v, grad) ∧
      grad.length = Inputs.size [("y", 5), ("x", 2)] ∧
      ∀ i : Nat, grad[i]? =
        Option.map
          (fun n => MvPolynomial.eval (assignment [("y", 5), ("x", 2)])
            (MvPolynomial.pderiv n (Op.mul (.var "x") (.var "y")).toPoly))
          (var_names_sorted [("y", 5), ("x", 2)])[i]? :=
  C3_gradient_length_and_ordering ⟨.mul (.var "x") (.var "y")⟩ [("y", 5), ("x", 2)]
    (by decide) (by decide)

/-- C4: product rule of `Mul::eval_grad` (`graph.cpp:133-153`): when
both factors evaluate (the inputs bind all their variables, so their
`eval_grad` results exist), the product graph evaluates to `v1 * v2`
with gradient elementwise `v2 * grad1 + v1 * grad2`. -/
theorem C4_product_rule (f1 f2 : Graph) (inputs : Inputs) (v1 v2 : ℚ)
    (gr1 gr2 : List ℚ)
    (h1 : f1.eval_grad inputs = .ok (v1, gr1))
    (h2 : f2.eval_grad inputs = .ok (v2, gr2)) :
    (Graph.mulG f1 f2).eval_grad inputs =
      .ok (v1 * v2, List.zipWith (fun x y => v2 * x + v1 * y) gr1 gr2) := by
  simp only [Graph.eval_grad, Graph.mulG] at h1 h2 ⊢
  simp [Op.eval_grad, h1, h2]

/-- Witness for C4 at `f1 = Var "x"`, `f2 = Const 2`, `x = 3`. -/
theorem C4_product_rule_witness :
    (Graph.mulG ⟨.var "x"⟩ ⟨.const 2⟩).eval_grad [("x", 3)] =
      .ok (3 * 2, List.zipWith (fun x y => 2 * x + 3 * y) [1] [0]) :=
  C4_product_rule ⟨.var "x"⟩ ⟨.const 2⟩ [("x", 3)] 3 2 [1] [0] rfl rfl

/-- C5: sum rule of `Sum::eval_grad` (`graph.cpp:87-105`): when both
operands evaluate, the sum graph evaluates to `v1 + v2` with gradient
the elementwise sum `grad1 + grad2`. -/
theorem C5_sum_rule (f1 f2 : Graph) (inputs : Inputs) (v1 v2 : ℚ)
    (gr1 gr2 : List ℚ)
    (h1 : f1.eval_grad inputs = .ok (v1, gr1))
    (h2 : f2.eval_grad inputs = .ok (v2, gr2)) :
    (Graph.addG f1 f2).eval_grad inputs =
      .ok (v1 + v2, List.zipWith (fun x y => x + y) gr1 gr2) := by
  simp only [Graph.eval_grad, Graph.addG] at h1 h2 ⊢
  simp [Op.eval_grad, h1, h2]

/-- Witness for C5 at `f1 = Var "x"`, `f2 = Const 2`, `x = 3`. -/
theorem C5_sum_rule_witness :
    (Graph.addG ⟨.var "x"⟩ ⟨.const 2⟩).eval_grad [("x", 3)] =
      .ok (3 + 2, List.zipWith (fun x y => x + y) [1] [0]) :=
  C5_sum_rule ⟨.var "x"⟩ ⟨.const 2⟩ [("x", 3)] 3 2 [1] [0] rfl rfl

/-- C6: serialize-then-deserialize round trip (`Graph::to_proto`,
`graph.cpp:238-242`, followed by `Graph::from_proto`,
`graph.cpp:244-246`) succeeds for every graph and yields a graph whose
`eval` and `eval_grad` agree with the original on every input binding
(in this exact-arithmetic model the results are equal outright, hence
within any floating-point tolerance). -/
theorem C6_roundtrip_preserves_eval (g : Graph) :
    ∃ g2 : Graph, Graph.from_proto (Graph.to_proto g) = .ok g2 ∧
      (∀ inputs, g2.eval inputs = g.eval inputs) ∧
      (∀ inputs, g2.eval_grad inputs = g.eval_grad inputs) := by
  refine ⟨⟨g.op⟩, ?_, fun _ => rfl, fun _ => rfl⟩
  simp [Graph.from_proto, Graph.to_proto, op_from_proto_to_proto]

/-- C7: the claim says the variable-name-to-index mapping is computed
exactly once per top-level `eval_grad` invocation.  The code does the
opposite: `find_var_idx` runs inside `Var::eval_grad`
(`graph.cpp:222`), i.e. once per visited `Var` leaf — the source even
flags it ("TODO find a way to move this out of the hot loop").  At
the concrete input `x + x` with binding `{x ↦ 1}`, one top-level
invocation runs `find_var_idx` twice; the instrumented recursion also
returns the same result as the plain one. -/
theorem C7_index_mapping_recomputed_per_leaf :
    (Op.eval_grad_fviCount (.sum (.var "x") (.var "x")) [("x", 1)]).2 = 2 ∧
    (Op.eval_grad_fviCount (.sum (.var "x") (.var "x")) [("x", 1)]).1 =
      Op.eval_grad (.sum (.var "x") (.var "x")) [("x", 1)] :=
  ⟨rfl, rfl⟩

/-- C8: commutativity of evaluation: `Sum::eval` (`graph.cpp:82-85`)
adds and `Mul::eval` (`graph.cpp:128-131`) multiplies the operand
values, so swapping the operands of `operator+` / `operator*`
(`graph.h:112-118`) never changes the `eval` outcome — including the
aborting cases, where both orders terminate the process. -/
theorem C8_eval_commutative (a b : Graph) (inputs : Inputs) :
    (Graph.addG a b).eval inputs = (Graph.addG b a).eval inputs ∧
    (Graph.mulG a b).eval inputs = (Graph.mulG b a).eval inputs := by
  refine ⟨?_, ?_⟩ <;>
  · simp only [Graph.eval, Graph.addG, Graph.mulG, Op.eval]
    cases Op.eval a.op inputs <;> cases Op.eval b.op inputs <;>
      simp [add_comm, mul_comm]

/-- C9: `operator+` / `operator*` on graphs (`graph.h:112-118`) are
pure constructors: each builds exactly one new `Sum` / `Mul` node
whose operand fields are precisely the two existing roots (so the node
count grows by exactly one), and — being pure functions of their
arguments in this model, as the C++ takes both operands by `const&`
and only copies `shared_ptr` handles — they leave both operand graphs
unchanged, enabling safe reuse of a subgraph by several parents. -/
theorem C9_composition_pure_one_new_node (g1 g2 : Graph) :
    (Graph.addG g1 g2).op = Op.sum g1.op g2.op ∧
    (Graph.mulG g1 g2).op = Op.mul g1.op g2.op ∧
    (Graph.addG g1 g2).op.nodeCount = g1.op.nodeCount + g2.op.nodeCount + 1 ∧
    (Graph.mulG g1 g2).op.nodeCount = g1.op.nodeCount + g2.op.nodeCount + 1 :=
  ⟨rfl, rfl, rfl, rfl⟩

/-- C10: bounds of the one-hot write in `Var::eval_grad`
(`graph.cpp:220-223`): the gradient buffer has `inputs.size()`
entries, and `find_var_idx` (`graph.cpp:70-79`) returns an index in
`[0, inputs.size())` exactly when the variable's name is a key of
`inputs`; when the name is absent it returns `inputs.size()`, one past
the end of the buffer, so the write `grad_out[var_idx] = 1.` is
in-bounds only under the precondition that the name is present. -/
theorem C10_find_var_idx_bounds (name : String) (inputs : Inputs) :
    (name ∈ Inputs.keys inputs → find_var_idx name inputs < Inputs.size inputs) ∧
    (name ∉ Inputs.keys inputs → find_var_idx name inputs = Inputs.size inputs) := by
  constructor
  · intro h
    have hlt := listIndexOf_lt_length name (var_names_sorted inputs)
      ((mem_var_names_sorted name inputs).mpr h)
    rwa [var_names_sorted_length] at hlt
  · intro h
    have heq := listIndexOf_eq_length name (var_names_sorted inputs)
      (fun hc => h ((mem_var_names_sorted name inputs).mp hc))
    rwa [var_names_sorted_length] at heq

/-- Witness for C10: `"x"` is a key of `{x ↦ 3, a ↦ 1}` and its index
is in bounds; `"z"` is not a key and its index equals the size. -/
theorem C10_find_var_idx_bounds_witness :
    find_var_idx "x" [("x", 3), ("a", 1)] < Inputs.size [("x", 3), ("a", 1)] ∧
    find_var_idx "z" [("x", 3), ("a", 1)] = Inputs.size [("x", 3), ("a", 1)] :=
  ⟨(C10_find_var_idx_bounds "x" [("x", 3), ("a", 1)]).1 (by decide),
   (C10_find_var_idx_bounds "z" [("x", 3), ("a", 1)]).2 (by decide)⟩

end ComputeGraphAd
